import Mathlib

/-!
Verification of the fuzzy-join core of distil-primitives-contrib
(src/distil_primitives_contrib/fuzzy_join.py) against its specification.

The Python floats that carry values, accuracies and tolerances are embedded
as exact rationals; timestamps (numpy datetime64) are embedded as integers
on a common epoch axis.  External library calls (fuzzywuzzy scoring,
haversine distance, pandas column operations) are embedded either
parametrically (an arbitrary score or distance function) or at the level of
the observable effect used by the repository code (column-name lists for the
pandas in-place mutations).
-/

namespace FuzzyJoin

/-- Embedding of the body of FuzzyJoinPrimitive._numeric_fuzzy_match:
the tolerance computed from accuracy and the absolute flag.  The source is
  if is_absolute: tolerance = accuracy
  else: tolerance = float(match) * (1.0 - accuracy)
Note the source multiplies the signed value, it does not take its absolute
value. -/
def numericTolerance (v accuracy : ℚ) (is_absolute : Bool) : ℚ :=
  if is_absolute then accuracy else v * (1 - accuracy)

/-- One step of the scanning loop of _numeric_fuzzy_match.  The accumulator
holds (min_val, min_distance); none stands for the initial state
min_val = nan, min_distance = inf, where any distance passes the
min_distance comparison.  The source condition is
  distance <= tolerance and distance <= min_distance
so a later candidate at the same distance replaces the current best. -/
def nfmStep (v tolerance : ℚ) (acc : Option (ℚ × ℚ)) (num : ℚ) : Option (ℚ × ℚ) :=
  let distance := |v - num|
  match acc with
  | none => if distance ≤ tolerance then some (num, distance) else none
  | some (min_val, min_distance) =>
      if distance ≤ tolerance ∧ distance ≤ min_distance then some (num, distance)
      else some (min_val, min_distance)

/-- The scanning loop of _numeric_fuzzy_match over the candidate list. -/
def nfmFold (v tolerance : ℚ) (choices : List ℚ) : Option (ℚ × ℚ) :=
  choices.foldl (nfmStep v tolerance) none

/-- Embedding of FuzzyJoinPrimitive._numeric_fuzzy_match.  The source
returns float(nan) when no candidate is within tolerance; we embed that
sentinel as none. -/
def numeric_fuzzy_match (v : ℚ) (choices : List ℚ) (accuracy : ℚ)
    (is_absolute : Bool) : Option ℚ :=
  (nfmFold v (numericTolerance v accuracy is_absolute) choices).map Prod.fst

/-- Invariant of the scanning loop after processing a list of candidates. -/
def nfmGood (v tolerance : ℚ) (seen : List ℚ) (acc : Option (ℚ × ℚ)) : Prop :=
  match acc with
  | none => ∀ c ∈ seen, ¬ (|v - c| ≤ tolerance)
  | some (min_val, min_distance) =>
      min_val ∈ seen ∧ min_distance = |v - min_val| ∧ min_distance ≤ tolerance ∧
        ∀ c ∈ seen, |v - c| ≤ tolerance → min_distance ≤ |v - c|

/-- One step of the scanning loop of FuzzyJoinPrimitive._geo_fuzzy_match.
The great-circle distance computed by the external haversine package is
abstracted as the parameter dist; the source compares
abs(hs.haversine(match, point, Unit.METERS)) against the accuracy, which
here plays the role of an absolute tolerance in meters.  The source
condition is
  distance <= accuracy and distance <= min_distance
with min_distance initialized to inf and min_val to None. -/
def gfmStep (dist : ℚ × ℚ → ℚ × ℚ → ℚ) (v : ℚ × ℚ) (accuracy : ℚ)
    (acc : Option ((ℚ × ℚ) × ℚ)) (point : ℚ × ℚ) : Option ((ℚ × ℚ) × ℚ) :=
  let distance := |dist v point|
  match acc with
  | none => if distance ≤ accuracy then some (point, distance) else none
  | some (min_val, min_distance) =>
      if distance ≤ accuracy ∧ distance ≤ min_distance then some (point, distance)
      else some (min_val, min_distance)

/-- Embedding of FuzzyJoinPrimitive._geo_fuzzy_match.  The source raises
InvalidArgumentTypeError when is_absolute is false, embedded as
Except.error with the source message. -/
def geo_fuzzy_match (dist : ℚ × ℚ → ℚ × ℚ → ℚ) (v : ℚ × ℚ)
    (choices : List (ℚ × ℚ)) (accuracy : ℚ) (is_absolute : Bool) :
    Except String (Option (ℚ × ℚ)) :=
  if is_absolute then
    Except.ok ((choices.foldl (gfmStep dist v accuracy) none).map Prod.fst)
  else
    Except.error "geo fuzzy match requires an absolute accuracy parameter that specifies the tolerance in meters"

/-- Shape invariant of the geo scanning loop: a some accumulator records a
previously seen point together with its distance, and that distance is
within tolerance. -/
def gfmShape (dist : ℚ × ℚ → ℚ × ℚ → ℚ) (v : ℚ × ℚ) (accuracy : ℚ)
    (seen : List (ℚ × ℚ)) (acc : Option ((ℚ × ℚ) × ℚ)) : Prop :=
  match acc with
  | none => True
  | some (min_val, min_distance) =>
      min_val ∈ seen ∧ min_distance = |dist v min_val| ∧ min_distance ≤ accuracy

/-- First-occurrence deduplication: the behavior of pandas Series.unique,
used by the source for left_keys, right_keys and the numeric choices. -/
def dedupKeepFirst {α : Type} [DecidableEq α] (l : List α) : List α :=
  l.foldl (fun acc x => if x ∈ acc then acc else acc ++ [x]) []

/-- One comparison step of the Python max call inside fuzzywuzzy
process.extractOne: keep the current best unless the new choice scores
strictly higher (max keeps the first maximal element). -/
def eoStep (score : String → String → ℚ) (query : String)
    (acc : Option (String × ℚ)) (c : String) : Option (String × ℚ) :=
  match acc with
  | none => some (c, score query c)
  | some (b, sb) =>
      if sb < score query c then some (c, score query c) else some (b, sb)

/-- Model of fuzzywuzzy process.extractOne (an external library call): the
(choice, score) pair of the choice with the maximal similarity score, the
first such choice on ties; returns None on an empty choice sequence.  The
similarity scorer of the library is abstracted as the parameter score. -/
def extractOne (score : String → String → ℚ) (query : String)
    (choices : List String) : Option (String × ℚ) :=
  choices.foldl (eoStep score query) none

/-- Invariant of the extractOne fold. -/
def eoGood (score : String → String → ℚ) (query : String) (seen : List String)
    (acc : Option (String × ℚ)) : Prop :=
  match acc with
  | none => seen = []
  | some (b, sb) => b ∈ seen ∧ sb = score query b ∧ ∀ c ∈ seen, score query c ≤ sb

/-- Embedding of FuzzyJoinPrimitive._string_fuzzy_match: unpack
process.extractOne(match, choices); return the choice when
score >= min_score, else None. -/
def string_fuzzy_match (score : String → String → ℚ) (v : String)
    (choices : List String) (min_score : ℚ) : Option String :=
  match extractOne score v choices with
  | none => none
  | some (choice, s) => if min_score ≤ s then some choice else none

/-- Embedding of FuzzyJoinPrimitive._create_string_merge_cols restricted to
the join-key column contents.  When accuracy < 1 the source deduplicates
both columns with pandas unique, fills a dict mapping every distinct left
key to _string_fuzzy_match(key, right_keys, accuracy * 100), and maps the
left column through the dict; the dict is embedded as an association list.
Otherwise the synthetic column holds the left values verbatim (wrapped in
some for a uniform cell type; None cells of the fuzzy branch are none). -/
def create_string_merge_cols (score : String → String → ℚ)
    (left_col right_col : List String) (accuracy : ℚ) : List (Option String) :=
  if accuracy < 1 then
    let left_keys := dedupKeepFirst left_col
    let right_keys := dedupKeepFirst right_col
    let matchTable := left_keys.map
      (fun k => (k, string_fuzzy_match score k right_keys (accuracy * 100)))
    left_col.map (fun key =>
      ((matchTable.find? (fun kv => kv.1 == key)).map Prod.snd).getD none)
  else
    left_col.map some

/-- Sorted deduplication: the behavior of numpy.unique, applied by the
source to the parsed right timestamp column. -/
def npUnique (l : List ℤ) : List ℤ := l.toFinset.sort (· ≤ ·)

instance : Std.Antisymm (fun (a b : ℤ) => a ≤ b) where
  antisymm h1 h2 := le_antisymm h1 h2

/-- One step of the scanning loop of _datetime_fuzzy_match.  Unlike the
numeric matcher this comparison with the running minimum is strict:
  distance <= tolerance and (min_distance is None or distance < min_distance). -/
def dtmStep (v : ℤ) (tolerance : ℚ) (acc : Option (ℤ × ℤ)) (date : ℤ) :
    Option (ℤ × ℤ) :=
  let distance := |v - date|
  match acc with
  | none => if (distance : ℚ) ≤ tolerance then some (date, distance) else none
  | some (min_date, min_distance) =>
      if (distance : ℚ) ≤ tolerance ∧ distance < min_distance then
        some (date, distance)
      else some (min_date, min_distance)

/-- Embedding of FuzzyJoinPrimitive._datetime_fuzzy_match; timestamps are
integers on a common epoch axis and the tolerance is the exact rational
value of the scaled timedelta. -/
def datetime_fuzzy_match (v : ℤ) (choices : List ℤ) (tolerance : ℚ) :
    Option ℤ :=
  (choices.foldl (dtmStep v tolerance) none).map Prod.fst

/-- Embedding of FuzzyJoinPrimitive._compute_time_range:
min(amax(left) - amin(left), amax(right) - amin(right)).  numpy amin and
amax reject an empty array; the embedding returns none in that case. -/
def compute_time_range (left right : List ℤ) : Option ℤ :=
  match left.min?, left.max?, right.min?, right.max? with
  | some lmin, some lmax, some rmin, some rmax =>
      some (min (lmax - lmin) (rmax - rmin))
  | _, _, _, _ => none

/-- Embedding of FuzzyJoinPrimitive._create_datetime_merge_cols restricted
to column contents.  Parsing of the textual timestamps with
dateutil.parser.parse is abstracted by taking the already-parsed integer
timestamps of both columns as input.  The result pairs the synthetic left
key column with the transformed right column; an empty side (on which the
numpy reductions raise) is embedded as Except.error. -/
def create_datetime_merge_cols (left_keys right_keys : List ℤ)
    (accuracy : ℚ) : Except String (List (Option ℤ) × List ℤ) :=
  let choices := npUnique right_keys
  match compute_time_range left_keys choices with
  | none => Except.error "zero-size array to reduction operation"
  | some range =>
      Except.ok
        (left_keys.map (fun v =>
          datetime_fuzzy_match v choices ((1 - accuracy) * (range : ℚ))),
         right_keys)

/-- Invariant of the datetime scanning loop. -/
def dtmGood (v : ℤ) (tolerance : ℚ) (seen : List ℤ) (acc : Option (ℤ × ℤ)) :
    Prop :=
  match acc with
  | none => ∀ c ∈ seen, ¬ (((|v - c| : ℤ) : ℚ) ≤ tolerance)
  | some (min_date, min_distance) =>
      min_date ∈ seen ∧ min_distance = |v - min_date| ∧
        (min_distance : ℚ) ≤ tolerance ∧
        ∀ c ∈ seen, ((|v - c| : ℤ) : ℚ) ≤ tolerance → min_distance ≤ |v - c|

/-- The semantic-type catalogs of FuzzyJoinPrimitive (Python set literals,
embedded as lists in declaration order). -/
def STRING_JOIN_TYPES : List String :=
  ["https://metadata.datadrivendiscovery.org/types/CategoricalData",
   "http://schema.org/Text",
   "http://schema.org/Boolean"]

def NUMERIC_JOIN_TYPES : List String :=
  ["http://schema.org/Integer", "http://schema.org/Float"]

def VECTOR_JOIN_TYPES : List String :=
  ["https://metadata.datadrivendiscovery.org/types/FloatVector"]

def GEO_JOIN_TYPES : List String :=
  ["https://metadata.datadrivendiscovery.org/types/BoundingPolygon"]

def DATETIME_JOIN_TYPES : List String :=
  ["http://schema.org/DateTime"]

/-- _SUPPORTED_TYPES: the union of the five catalogs. -/
def SUPPORTED_TYPES : List String :=
  STRING_JOIN_TYPES ++ NUMERIC_JOIN_TYPES ++ DATETIME_JOIN_TYPES ++
    VECTOR_JOIN_TYPES ++ GEO_JOIN_TYPES

/-- Python membership test x in catalog where x is the optional resolved
join type (None is in no catalog of strings). -/
def optMem (jt : Option String) (catalog : List String) : Bool :=
  match jt with
  | none => false
  | some s => catalog.contains s

/-- The branches of the produce column-pair loop. -/
inductive Branch
  | stringBranch
  | numericBranch
  | vectorBranch
  | geoVectorBranch
  | datetimeBranch
  | unsupportedBranch
deriving DecidableEq

/-- Branch selection of the produce loop (fuzzy_join.py lines 286-366): the
resolved join type is tested for membership in the catalogs in source
order; the geo-vector branch is an elif guarded by the same
_VECTOR_JOIN_TYPES test as the vector branch directly above it. -/
def dispatch (jt : Option String) : Branch :=
  if optMem jt STRING_JOIN_TYPES then Branch.stringBranch
  else if optMem jt NUMERIC_JOIN_TYPES then Branch.numericBranch
  else if optMem jt VECTOR_JOIN_TYPES then Branch.vectorBranch
  else if optMem jt VECTOR_JOIN_TYPES then Branch.geoVectorBranch
  else if optMem jt DATETIME_JOIN_TYPES then Branch.datetimeBranch
  else Branch.unsupportedBranch

/-- str() of the optional resolved join type as interpolated into the
source error message (str(None) is the text None). -/
def showJoinType : Option String → String
  | none => "None"
  | some s => s

/-- Control flow of the produce column-pair loop: process the resolved join
types in configuration order; a supported pair runs its matcher branch (its
pair index is recorded in the first component), and an unsupported pair
raises InvalidArgumentValueError with the source message (second
component), ending the loop with the earlier pairs' work already done. -/
def process_pairs_from (i : Nat) (ran : List Nat) :
    List (Option String) → List Nat × Option String
  | [] => (ran, none)
  | jt :: rest =>
      if dispatch jt = Branch.unsupportedBranch then
        (ran, some ("join not surpported on type " ++ showJoinType jt))
      else
        process_pairs_from (i + 1) (ran ++ [i]) rest

def process_pairs (jts : List (Option String)) : List Nat × Option String :=
  process_pairs_from 0 [] jts

/-- Embedding of FuzzyJoinPrimitive._get_column_semantic_type: scan the
column metadata of the table in order and return the semantic-type set of
the first column whose name equals col_name, or the empty set when no
column matches.  Column metadata is embedded as (name, semantic_types)
pairs. -/
def get_column_semantic_type (columns : List (String × List String))
    (col_name : String) : List String :=
  match columns.find? (fun c => c.1 == col_name) with
  | some c => c.2
  | none => []

/-- Embedding of FuzzyJoinPrimitive._get_join_semantic_type on the two
semantic-type sets (Python sets embedded as lists; intersection keeps the
elements of the first operand that lie in the second). -/
def get_join_semantic_type (left_types right_types : List String) :
    Option String :=
  let supported_left_types := left_types.filter
    (fun t => SUPPORTED_TYPES.contains t)
  let supported_right_types := right_types.filter
    (fun t => SUPPORTED_TYPES.contains t)
  let join_types := supported_left_types.filter
    (fun t => supported_right_types.contains t)
  let join_types :=
    if join_types.isEmpty then
      if !(left_types.filter (fun t => NUMERIC_JOIN_TYPES.contains t)).isEmpty &&
          !(right_types.filter (fun t => NUMERIC_JOIN_TYPES.contains t)).isEmpty then
        ["http://schema.org/Float"]
      else if !(left_types.filter (fun t => STRING_JOIN_TYPES.contains t)).isEmpty &&
          !(right_types.filter (fun t => STRING_JOIN_TYPES.contains t)).isEmpty then
        ["http://schema.org/Text"]
      else []
    else join_types
  join_types.head?

/-- Column-name-level effect of the pandas assignment
left_df[new_left_df.columns] = new_left_df used by produce on the caller
owned left table: a new column name is appended, an existing one is
overwritten in place. -/
def pandasAssign (cols : List String) (new_col : String) : List String :=
  if new_col ∈ cols then cols else cols ++ [new_col]

/-- Column-name-level effect of right_df.rename(columns=..., inplace=True). -/
def pandasRename (cols : List String) (old new_name : String) : List String :=
  cols.map (fun c => if c = old then new_name else c)

/-- Column-name-level effect of right_df.drop(columns=..., inplace=True). -/
def pandasDrop (cols : List String) (to_drop : List String) : List String :=
  cols.filter (fun c => !(to_drop.contains c))

/-- The in-place effects of produce on the caller tables for one
string-type column pair (fuzzy_join.py lines 286-301 and 368-370): the
synthetic lefty_string column is assigned onto the left table, the right
join column is renamed to righty_string on the right table, and after the
loop the d3mIndex column (the only entry of right_cols_to_drop for a
string pair) is dropped from the right table, all with inplace=True or
direct assignment on the input objects. -/
def produce_string_pair_mutation (left_cols right_cols : List String)
    (right_col : String) (index : Nat) : List String × List String :=
  let left_cols := pandasAssign left_cols ("lefty_string" ++ toString index)
  let right_cols := pandasRename right_cols right_col
    ("righty_string" ++ toString index)
  (left_cols, pandasDrop right_cols ["d3mIndex"])

/-- A raw cell of a numeric join column before coercion: either a value
pandas can coerce to a number, or one on which coercion fails (for example
a non-numeric string). -/
inductive Cell
  | numeric (q : ℚ)
  | unparsable
deriving DecidableEq

/-- pandas.to_numeric with its default errors="raise", as called by
_create_numeric_merge_cols (which passes no errors argument and wraps the
call in no try/except): coercion of a non-coercible cell raises. -/
def pd_to_numeric : List Cell → Except String (List ℚ)
  | [] => Except.ok []
  | Cell.numeric q :: rest => (pd_to_numeric rest).map (fun xs => q :: xs)
  | Cell.unparsable :: _ => Except.error "Unable to parse string"

/-- Embedding of FuzzyJoinPrimitive._create_numeric_merge_cols restricted
to column contents: choices is the right column deduplicated with pandas
unique; the left column is coerced with pd.to_numeric and mapped through
_numeric_fuzzy_match.  A coercion failure propagates out uncaught. -/
def create_numeric_merge_cols (left_col : List Cell) (right_col : List ℚ)
    (accuracy : ℚ) (is_absolute : Bool) : Except String (List (Option ℚ)) :=
  let choices := dedupKeepFirst right_col
  (pd_to_numeric left_col).map
    (fun xs => xs.map (fun x => numeric_fuzzy_match x choices accuracy is_absolute))

lemma nfmGood_step (v tolerance : ℚ) (seen : List ℚ) (acc : Option (ℚ × ℚ))
    (h : nfmGood v tolerance seen acc) (num : ℚ) :
    nfmGood v tolerance (seen ++ [num]) (nfmStep v tolerance acc num) := by
  cases acc with
  | none =>
      simp only [nfmGood, nfmStep] at h ⊢
      by_cases hd : |v - num| ≤ tolerance
      · simp only [if_pos hd]
        refine ⟨by simp, by trivial, hd, ?_⟩
        intro c hc _
        rcases List.mem_append.mp hc with hc | hc
        · exact absurd ‹|v - c| ≤ tolerance› (h c hc)
        · simp only [List.mem_singleton] at hc
          subst hc; exact le_refl _
      · simp only [if_neg hd]
        intro c hc
        rcases List.mem_append.mp hc with hc | hc
        · exact h c hc
        · simp only [List.mem_singleton] at hc
          subst hc; exact hd
  | some p =>
      obtain ⟨min_val, min_distance⟩ := p
      simp only [nfmGood, nfmStep] at h ⊢
      obtain ⟨hmem, hdist, htol, hmin⟩ := h
      by_cases hd : |v - num| ≤ tolerance ∧ |v - num| ≤ min_distance
      · simp only [if_pos hd]
        refine ⟨by simp, by trivial, hd.1, ?_⟩
        intro c hc hct
        rcases List.mem_append.mp hc with hc | hc
        · exact le_trans hd.2 (hmin c hc hct)
        · simp only [List.mem_singleton] at hc
          subst hc; exact le_refl _
      · simp only [if_neg hd]
        refine ⟨List.mem_append.mpr (Or.inl hmem), hdist, htol, ?_⟩
        intro c hc hct
        rcases List.mem_append.mp hc with hc | hc
        · exact hmin c hc hct
        · simp only [List.mem_singleton] at hc
          subst hc
          rcases not_and_or.mp hd with hbad | hbad
          · exact absurd hct hbad
          · exact le_of_not_le hbad

lemma nfmGood_foldl (v tolerance : ℚ) (choices : List ℚ) :
    ∀ (seen : List ℚ) (acc : Option (ℚ × ℚ)), nfmGood v tolerance seen acc →
      nfmGood v tolerance (seen ++ choices) (choices.foldl (nfmStep v tolerance) acc) := by
  induction choices with
  | nil => intro seen acc h; simpa using h
  | cons num rest ih =>
      intro seen acc h
      have h1 := nfmGood_step v tolerance seen acc h num
      have h2 := ih (seen ++ [num]) (nfmStep v tolerance acc num) h1
      simpa using h2

lemma nfmFold_spec (v tolerance : ℚ) (choices : List ℚ) :
    nfmGood v tolerance choices (nfmFold v tolerance choices) := by
  have h := nfmGood_foldl v tolerance choices [] none (by simp [nfmGood])
  simpa [nfmFold] using h

lemma numeric_match_none_iff (v accuracy : ℚ) (choices : List ℚ) (is_absolute : Bool) :
    numeric_fuzzy_match v choices accuracy is_absolute = none ↔
      ∀ c ∈ choices, ¬ (|v - c| ≤ numericTolerance v accuracy is_absolute) := by
  have hspec := nfmFold_spec v (numericTolerance v accuracy is_absolute) choices
  unfold numeric_fuzzy_match
  cases hfold : nfmFold v (numericTolerance v accuracy is_absolute) choices with
  | none =>
      rw [hfold] at hspec
      simp only [nfmGood] at hspec
      simpa using hspec
  | some p =>
      obtain ⟨min_val, min_distance⟩ := p
      rw [hfold] at hspec
      obtain ⟨hmem, hd, htol, _⟩ := hspec
      subst hd
      simp only [Option.map_some', Option.some_ne_none, false_iff]
      intro hall
      exact hall min_val hmem htol

lemma numeric_match_some_spec (v accuracy : ℚ) (choices : List ℚ) (is_absolute : Bool)
    (c : ℚ) (h : numeric_fuzzy_match v choices accuracy is_absolute = some c) :
    c ∈ choices ∧ |v - c| ≤ numericTolerance v accuracy is_absolute ∧
      ∀ x ∈ choices, |v - x| ≤ numericTolerance v accuracy is_absolute → |v - c| ≤ |v - x| := by
  have hspec := nfmFold_spec v (numericTolerance v accuracy is_absolute) choices
  unfold numeric_fuzzy_match at h
  cases hfold : nfmFold v (numericTolerance v accuracy is_absolute) choices with
  | none => rw [hfold] at h; simp only [Option.map_none'] at h; exact absurd h (by simp)
  | some p =>
      obtain ⟨min_val, min_distance⟩ := p
      rw [hfold] at h hspec
      simp only [Option.map_some', Option.some.injEq] at h
      subst h
      obtain ⟨hmem, hd, htol, hmin⟩ := hspec
      subst hd
      exact ⟨hmem, htol, hmin⟩

lemma nfmStep_scale (k v tolerance : ℚ) (hk : 0 < k) (acc : Option (ℚ × ℚ)) (num : ℚ) :
    nfmStep (k * v) (k * tolerance) (acc.map (fun p => (k * p.1, k * p.2))) (k * num)
      = (nfmStep v tolerance acc num).map (fun p => (k * p.1, k * p.2)) := by
  have habs : |k * v - k * num| = k * |v - num| := by
    rw [← mul_sub, abs_mul, abs_of_pos hk]
  cases acc with
  | none =>
      simp only [nfmStep, Option.map_none', habs]
      by_cases hd : |v - num| ≤ tolerance
      · rw [if_pos ((mul_le_mul_left hk).mpr hd), if_pos hd, Option.map_some']
      · rw [if_neg (fun hbad => hd ((mul_le_mul_left hk).mp hbad)), if_neg hd,
          Option.map_none']
  | some p =>
      obtain ⟨a, b⟩ := p
      simp only [nfmStep, Option.map_some', habs]
      by_cases hd : |v - num| ≤ tolerance ∧ |v - num| ≤ b
      · rw [if_pos ⟨(mul_le_mul_left hk).mpr hd.1, (mul_le_mul_left hk).mpr hd.2⟩,
          if_pos hd, Option.map_some']
      · have hd' : ¬ (k * |v - num| ≤ k * tolerance ∧ k * |v - num| ≤ k * b) := by
          intro hbad
          exact hd ⟨(mul_le_mul_left hk).mp hbad.1, (mul_le_mul_left hk).mp hbad.2⟩
        rw [if_neg hd', if_neg hd, Option.map_some']

lemma nfmFold_scale_aux (k v tolerance : ℚ) (hk : 0 < k) (choices : List ℚ) :
    ∀ acc : Option (ℚ × ℚ),
      (choices.map (fun c => k * c)).foldl (nfmStep (k * v) (k * tolerance))
          (acc.map (fun p => (k * p.1, k * p.2)))
        = (choices.foldl (nfmStep v tolerance) acc).map (fun p => (k * p.1, k * p.2)) := by
  induction choices with
  | nil => intro acc; rfl
  | cons num rest ih =>
      intro acc
      simp only [List.map_cons, List.foldl_cons]
      rw [nfmStep_scale k v tolerance hk acc num]
      exact ih (nfmStep v tolerance acc num)

/-- C9: the numeric matcher with a relative (non-absolute) accuracy is
invariant under scaling the left value and every candidate by the same
positive constant: the scaled match succeeds exactly when the original
does, and returns k times the original matched candidate. -/
theorem numeric_fuzzy_match_scale_invariant (k v accuracy : ℚ) (choices : List ℚ)
    (hk : 0 < k) :
    numeric_fuzzy_match (k * v) (choices.map (fun c => k * c)) accuracy false
      = (numeric_fuzzy_match v choices accuracy false).map (fun c => k * c) := by
  unfold numeric_fuzzy_match nfmFold
  have htol : numericTolerance (k * v) accuracy false
      = k * numericTolerance v accuracy false := by
    simp only [numericTolerance, if_neg (Bool.false_ne_true)]
    ring
  rw [htol]
  have key := nfmFold_scale_aux k v (numericTolerance v accuracy false) hk choices none
  simp only [Option.map_none'] at key
  rw [key]
  generalize choices.foldl (nfmStep v (numericTolerance v accuracy false)) none = r
  cases r with
  | none => rfl
  | some p => rfl

/-- Witness for numeric_fuzzy_match_scale_invariant at k = 2, v = 1,
choices = [1, 5], accuracy = 1/2. -/
theorem numeric_fuzzy_match_scale_invariant_witness :
    (0 : ℚ) < 2 ∧
      numeric_fuzzy_match (2 * 1) ([1, 5].map (fun c => 2 * c)) (1/2) false
        = (numeric_fuzzy_match 1 [1, 5] (1/2) false).map (fun c => 2 * c) :=
  ⟨by norm_num, numeric_fuzzy_match_scale_invariant 2 1 (1/2) [1, 5] (by norm_num)⟩

/-- C1 (amended): _numeric_fuzzy_match uses tolerance t = accuracy when
is_absolute is true and t = v * (1 - accuracy) otherwise -- the signed left
value, not its absolute value; it returns a candidate of the choice list
minimizing |v - c| among those with |v - c| <= t, and returns no match when
no candidate satisfies |v - c| <= t. -/
theorem numeric_fuzzy_match_spec (v accuracy : ℚ) (choices : List ℚ)
    (is_absolute : Bool) :
    (numericTolerance v accuracy is_absolute
        = if is_absolute then accuracy else v * (1 - accuracy)) ∧
    (numeric_fuzzy_match v choices accuracy is_absolute = none ↔
      ∀ c ∈ choices, ¬ (|v - c| ≤ numericTolerance v accuracy is_absolute)) ∧
    ∀ c, numeric_fuzzy_match v choices accuracy is_absolute = some c →
      c ∈ choices ∧ |v - c| ≤ numericTolerance v accuracy is_absolute ∧
        ∀ x ∈ choices, |v - x| ≤ numericTolerance v accuracy is_absolute →
          |v - c| ≤ |v - x| :=
  ⟨rfl, numeric_match_none_iff v accuracy choices is_absolute,
    fun c h => numeric_match_some_spec v accuracy choices is_absolute c h⟩

/-- Witness for numeric_fuzzy_match_spec: at v = 1, accuracy = 1/2,
choices = [1], relative accuracy, the matcher returns 1 and the spec
conjunction is discharged at that input. -/
theorem numeric_fuzzy_match_spec_witness :
    (1 : ℚ) ∈ [(1 : ℚ)] ∧ |(1 : ℚ) - 1| ≤ numericTolerance 1 (1/2) false :=
  let h := (numeric_fuzzy_match_spec 1 (1/2) [1] false).2.2 1 (by
    norm_num [numeric_fuzzy_match, nfmFold, nfmStep, numericTolerance])
  ⟨h.1, h.2.1⟩

/-- C1 counterexample: for the negative left value -10 with relative
accuracy 1/2, the candidate -10 is within the tolerance |v| * (1 - a)
claimed by the specification, yet the matcher returns no match, because the
source computes the tolerance from the signed value: -10 * (1 - 1/2) < 0. -/
theorem numeric_fuzzy_match_abs_tolerance_counterexample :
    |(-10 : ℚ) - (-10)| ≤ |(-10 : ℚ)| * (1 - 1/2) ∧
      numeric_fuzzy_match (-10) [-10] (1/2) false = none := by
  norm_num [numeric_fuzzy_match, nfmFold, nfmStep, numericTolerance]

lemma gfmShape_step (dist : ℚ × ℚ → ℚ × ℚ → ℚ) (v : ℚ × ℚ) (accuracy : ℚ)
    (seen : List (ℚ × ℚ)) (acc : Option ((ℚ × ℚ) × ℚ))
    (h : gfmShape dist v accuracy seen acc) (point : ℚ × ℚ) :
    gfmShape dist v accuracy (seen ++ [point]) (gfmStep dist v accuracy acc point) := by
  cases acc with
  | none =>
      simp only [gfmShape, gfmStep]
      by_cases hd : |dist v point| ≤ accuracy
      · simp only [if_pos hd, gfmShape]
        exact ⟨by simp, by trivial, hd⟩
      · simp only [if_neg hd, gfmShape]
  | some p =>
      obtain ⟨min_val, min_distance⟩ := p
      simp only [gfmShape] at h
      obtain ⟨hmem, hdist, htol⟩ := h
      simp only [gfmShape, gfmStep]
      by_cases hd : |dist v point| ≤ accuracy ∧ |dist v point| ≤ min_distance
      · simp only [if_pos hd, gfmShape]
        exact ⟨by simp, by trivial, hd.1⟩
      · simp only [if_neg hd, gfmShape]
        exact ⟨List.mem_append.mpr (Or.inl hmem), hdist, htol⟩

lemma gfmShape_foldl (dist : ℚ × ℚ → ℚ × ℚ → ℚ) (v : ℚ × ℚ) (accuracy : ℚ)
    (choices : List (ℚ × ℚ)) :
    ∀ (seen : List (ℚ × ℚ)) (acc : Option ((ℚ × ℚ) × ℚ)),
      gfmShape dist v accuracy seen acc →
      gfmShape dist v accuracy (seen ++ choices)
        (choices.foldl (gfmStep dist v accuracy) acc) := by
  induction choices with
  | nil => intro seen acc h; simpa using h
  | cons point rest ih =>
      intro seen acc h
      have h1 := gfmShape_step dist v accuracy seen acc h point
      have h2 := ih (seen ++ [point]) (gfmStep dist v accuracy acc point) h1
      simpa using h2

lemma nfmFold_frozen (v tolerance m d : ℚ) (C : List ℚ)
    (h : ∀ x ∈ C, ¬ (|v - x| ≤ tolerance ∧ |v - x| ≤ d)) :
    C.foldl (nfmStep v tolerance) (some (m, d)) = some (m, d) := by
  induction C with
  | nil => rfl
  | cons x rest ih =>
      simp only [List.foldl_cons, nfmStep]
      rw [if_neg (h x (List.mem_cons_self x rest))]
      exact ih (fun y hy => h y (List.mem_cons_of_mem x hy))

lemma gfmFold_frozen (dist : ℚ × ℚ → ℚ × ℚ → ℚ) (p : ℚ × ℚ) (g : ℚ)
    (m : ℚ × ℚ) (d : ℚ) (P : List (ℚ × ℚ))
    (h : ∀ x ∈ P, ¬ (|dist p x| ≤ g ∧ |dist p x| ≤ d)) :
    P.foldl (gfmStep dist p g) (some (m, d)) = some (m, d) := by
  induction P with
  | nil => rfl
  | cons x rest ih =>
      simp only [List.foldl_cons, gfmStep]
      rw [if_neg (h x (List.mem_cons_self x rest))]
      exact ih (fun y hy => h y (List.mem_cons_of_mem x hy))

/-- C2 (amended): in both _numeric_fuzzy_match and _geo_fuzzy_match the
scanning condition distance <= min_distance is non-strict, so among
candidates attaining the same minimal within-tolerance distance the LAST
candidate encountered in iteration order is returned, not the first: for
every candidate sequence split as before ++ c :: after where c is within
tolerance, at least as close as every earlier within-tolerance candidate,
and strictly closer than every later within-tolerance candidate (that is,
c is the last candidate attaining the minimal within-tolerance distance),
the matcher returns c. -/
theorem fuzzy_match_tie_break_last (v accuracy : ℚ) (is_absolute : Bool)
    (Cbefore Cafter : List ℚ) (c : ℚ)
    (dist : ℚ × ℚ → ℚ × ℚ → ℚ) (p q : ℚ × ℚ) (g : ℚ)
    (Pbefore Pafter : List (ℚ × ℚ))
    (h1 : |v - c| ≤ numericTolerance v accuracy is_absolute)
    (h2 : ∀ x ∈ Cbefore, |v - x| ≤ numericTolerance v accuracy is_absolute →
      |v - c| ≤ |v - x|)
    (h3 : ∀ x ∈ Cafter, |v - x| ≤ numericTolerance v accuracy is_absolute →
      |v - c| < |v - x|)
    (h4 : |dist p q| ≤ g)
    (h5 : ∀ x ∈ Pbefore, |dist p x| ≤ g → |dist p q| ≤ |dist p x|)
    (h6 : ∀ x ∈ Pafter, |dist p x| ≤ g → |dist p q| < |dist p x|) :
    numeric_fuzzy_match v (Cbefore ++ c :: Cafter) accuracy is_absolute = some c ∧
      geo_fuzzy_match dist p (Pbefore ++ q :: Pafter) g true
        = Except.ok (some q) := by
  constructor
  · unfold numeric_fuzzy_match nfmFold
    rw [List.foldl_append, List.foldl_cons]
    have hstep : nfmStep v (numericTolerance v accuracy is_absolute)
        (Cbefore.foldl (nfmStep v (numericTolerance v accuracy is_absolute)) none) c
        = some (c, |v - c|) := by
      have hspec := nfmFold_spec v (numericTolerance v accuracy is_absolute) Cbefore
      unfold nfmFold at hspec
      cases hfold : Cbefore.foldl
          (nfmStep v (numericTolerance v accuracy is_absolute)) none with
      | none => simp only [nfmStep, if_pos h1]
      | some r =>
          obtain ⟨min_val, min_distance⟩ := r
          rw [hfold] at hspec
          obtain ⟨hmem, hdeq, htol, _⟩ := hspec
          have hle : |v - c| ≤ min_distance := by
            rw [hdeq]
            exact h2 min_val hmem (hdeq ▸ htol)
          have hcond : |v - c| ≤ numericTolerance v accuracy is_absolute ∧
              |v - c| ≤ min_distance := ⟨h1, hle⟩
          simp only [nfmStep, if_pos hcond]
    rw [hstep, nfmFold_frozen v (numericTolerance v accuracy is_absolute) c
      (|v - c|) Cafter
      (fun x hx hbad => absurd hbad.2 (not_le_of_lt (h3 x hx hbad.1)))]
    rfl
  · unfold geo_fuzzy_match
    rw [if_pos rfl, List.foldl_append, List.foldl_cons]
    have hstep : gfmStep dist p g (Pbefore.foldl (gfmStep dist p g) none) q
        = some (q, |dist p q|) := by
      have hshape := gfmShape_foldl dist p g Pbefore [] none (by simp [gfmShape])
      simp only [List.nil_append] at hshape
      cases hfold : Pbefore.foldl (gfmStep dist p g) none with
      | none => simp only [gfmStep, if_pos h4]
      | some r =>
          obtain ⟨min_val, min_distance⟩ := r
          rw [hfold] at hshape
          obtain ⟨hmem, hdeq, htol⟩ := hshape
          have hle : |dist p q| ≤ min_distance := by
            rw [hdeq]
            exact h5 min_val hmem (hdeq ▸ htol)
          have hcond : |dist p q| ≤ g ∧ |dist p q| ≤ min_distance := ⟨h4, hle⟩
          simp only [gfmStep, if_pos hcond]
    rw [hstep, gfmFold_frozen dist p g q (|dist p q|) Pafter
      (fun x hx hbad => absurd hbad.2 (not_le_of_lt (h6 x hx hbad.1)))]
    rfl

/-- Witness for fuzzy_match_tie_break_last: with value 5, tolerance 2 and
candidates [4] ++ 6 :: [100], the candidates 4 and 6 tie at minimal
distance 1 and 100 is out of tolerance, so 6, the last tied candidate,
wins; analogously for the point (0, 1) among [(1, 0)] ++ (0, 1) :: [(3, 3)]. -/
theorem fuzzy_match_tie_break_last_witness :
    numeric_fuzzy_match 5 ([4] ++ 6 :: [100]) 2 true = some 6 ∧
      geo_fuzzy_match (fun a b => |a.1 - b.1| + |a.2 - b.2|) (0, 0)
        ([(1, 0)] ++ (0, 1) :: [(3, 3)]) 5 true = Except.ok (some (0, 1)) :=
  fuzzy_match_tie_break_last 5 2 true [4] [100] 6
    (fun a b => |a.1 - b.1| + |a.2 - b.2|) (0, 0) (0, 1) 5 [(1, 0)] [(3, 3)]
    (by norm_num [numericTolerance])
    (by
      intro x hx
      simp only [List.mem_singleton] at hx
      subst hx
      norm_num [numericTolerance])
    (by
      intro x hx
      simp only [List.mem_singleton] at hx
      subst hx
      intro hbad
      norm_num [numericTolerance] at hbad)
    (by norm_num)
    (by
      intro x hx
      simp only [List.mem_singleton] at hx
      subst hx
      norm_num)
    (by
      intro x hx
      simp only [List.mem_singleton] at hx
      subst hx
      intro hbad
      norm_num at hbad)

/-- C2 counterexample: with left value 5, candidates [4, 6] and absolute
tolerance 2 both candidates are at minimal distance 1, and the numeric
matcher returns the second candidate 6, not the first; an analogous geo
instance returns the second tied point. -/
theorem fuzzy_match_tie_break_first_counterexample :
    numeric_fuzzy_match 5 [4, 6] 2 true = some 6 ∧
      |(5 : ℚ) - 4| = |(5 : ℚ) - 6| ∧ (4 : ℚ) ≠ 6 ∧
      geo_fuzzy_match (fun a b => |a.1 - b.1| + |a.2 - b.2|) (0, 0)
        [(1, 0), (0, 1)] 5 true = Except.ok (some (0, 1)) ∧
      ((1, 0) : ℚ × ℚ) ≠ (0, 1) := by
  refine ⟨by norm_num [numeric_fuzzy_match, nfmFold, nfmStep, numericTolerance],
    by norm_num, by norm_num, ?_, by norm_num⟩
  norm_num [geo_fuzzy_match, gfmStep]

lemma mem_dedup_foldl {α : Type} [DecidableEq α] (l : List α) :
    ∀ (acc : List α) (x : α),
      (x ∈ l.foldl (fun acc x => if x ∈ acc then acc else acc ++ [x]) acc ↔
        x ∈ acc ∨ x ∈ l) := by
  induction l with
  | nil => intro acc x; simp
  | cons a rest ih =>
      intro acc x
      simp only [List.foldl_cons]
      by_cases ha : a ∈ acc
      · rw [if_pos ha, ih acc x]
        constructor
        · rintro (hx | hx)
          · exact Or.inl hx
          · exact Or.inr (List.mem_cons_of_mem a hx)
        · rintro (hx | hx)
          · exact Or.inl hx
          · rcases List.mem_cons.mp hx with hx | hx
            · subst hx; exact Or.inl ha
            · exact Or.inr hx
      · rw [if_neg ha, ih (acc ++ [a]) x]
        constructor
        · rintro (hx | hx)
          · rcases List.mem_append.mp hx with hx | hx
            · exact Or.inl hx
            · simp only [List.mem_singleton] at hx
              subst hx; exact Or.inr (List.mem_cons_self _ _)
          · exact Or.inr (List.mem_cons_of_mem a hx)
        · rintro (hx | hx)
          · exact Or.inl (List.mem_append.mpr (Or.inl hx))
          · rcases List.mem_cons.mp hx with hx | hx
            · subst hx
              exact Or.inl (List.mem_append.mpr (Or.inr (List.mem_singleton.mpr rfl)))
            · exact Or.inr hx

lemma mem_dedupKeepFirst {α : Type} [DecidableEq α] (l : List α) (x : α) :
    x ∈ dedupKeepFirst l ↔ x ∈ l := by
  unfold dedupKeepFirst
  rw [mem_dedup_foldl l [] x]
  simp

lemma eoGood_step (score : String → String → ℚ) (query : String)
    (seen : List String) (acc : Option (String × ℚ))
    (h : eoGood score query seen acc) (c : String) :
    eoGood score query (seen ++ [c]) (eoStep score query acc c) := by
  cases acc with
  | none =>
      simp only [eoGood] at h
      subst h
      simp only [eoStep, eoGood]
      refine ⟨by simp, by trivial, ?_⟩
      intro x hx
      simp only [List.nil_append, List.mem_singleton] at hx
      subst hx; exact le_refl _
  | some p =>
      obtain ⟨b, sb⟩ := p
      simp only [eoGood] at h
      obtain ⟨hmem, hsb, hmax⟩ := h
      simp only [eoStep]
      by_cases hlt : sb < score query c
      · simp only [if_pos hlt, eoGood]
        refine ⟨by simp, by trivial, ?_⟩
        intro x hx
        rcases List.mem_append.mp hx with hx | hx
        · exact le_of_lt (lt_of_le_of_lt (hmax x hx) hlt)
        · simp only [List.mem_singleton] at hx
          subst hx; exact le_refl _
      · simp only [if_neg hlt, eoGood]
        refine ⟨List.mem_append.mpr (Or.inl hmem), hsb, ?_⟩
        intro x hx
        rcases List.mem_append.mp hx with hx | hx
        · exact hmax x hx
        · simp only [List.mem_singleton] at hx
          subst hx; exact le_of_not_lt hlt

lemma eoGood_foldl (score : String → String → ℚ) (query : String)
    (choices : List String) :
    ∀ (seen : List String) (acc : Option (String × ℚ)),
      eoGood score query seen acc →
      eoGood score query (seen ++ choices)
        (choices.foldl (eoStep score query) acc) := by
  induction choices with
  | nil => intro seen acc h; simpa using h
  | cons c rest ih =>
      intro seen acc h
      simp only [List.foldl_cons]
      have h2 := ih (seen ++ [c]) (eoStep score query acc c)
        (eoGood_step score query seen acc h c)
      simpa using h2

lemma extractOne_spec (score : String → String → ℚ) (query : String)
    (choices : List String) (h : choices ≠ []) :
    ∃ best bestScore, extractOne score query choices = some (best, bestScore) ∧
      best ∈ choices ∧ bestScore = score query best ∧
      ∀ c ∈ choices, score query c ≤ bestScore := by
  have hg := eoGood_foldl score query choices [] none (by simp [eoGood])
  simp only [List.nil_append] at hg
  unfold extractOne
  cases hfold : choices.foldl (eoStep score query) none with
  | none =>
      rw [hfold] at hg
      simp only [eoGood] at hg
      exact absurd hg h
  | some p =>
      obtain ⟨b, sb⟩ := p
      rw [hfold] at hg
      obtain ⟨hmem, hsb, hmax⟩ := hg
      exact ⟨b, sb, rfl, hmem, hsb, hmax⟩

lemma find_map_pair {α β : Type} [DecidableEq α] (l : List α) (f : α → β) (key : α)
    (h : key ∈ l) :
    (l.map (fun k => (k, f k))).find? (fun kv => kv.1 == key) = some (key, f key) := by
  induction l with
  | nil => cases h
  | cons a rest ih =>
      simp only [List.map_cons]
      by_cases hak : a = key
      · subst hak
        exact List.find?_cons_of_pos _ (by simp)
      · rw [List.find?_cons_of_neg _ (by simp [hak])]
        rcases List.mem_cons.mp h with hk | hk
        · exact absurd hk.symm hak
        · exact ih hk

/-- C3: for a string column pair, when accuracy equals 1.0 the synthetic
left key column holds each left value verbatim (exact equality left to the
equi-join); when accuracy is below 1.0 each left value is mapped, once per
distinct left value, through _string_fuzzy_match against the deduplicated
right candidate set, which returns the maximum-scoring candidate when its
score is at least accuracy * 100 and no match otherwise. -/
theorem create_string_merge_cols_spec (score : String → String → ℚ)
    (left_col right_col : List String) (accuracy : ℚ) :
    (accuracy = 1 →
      create_string_merge_cols score left_col right_col accuracy
        = left_col.map some) ∧
    (accuracy < 1 →
      create_string_merge_cols score left_col right_col accuracy
        = left_col.map (fun v =>
            string_fuzzy_match score v (dedupKeepFirst right_col)
              (accuracy * 100))) ∧
    (right_col ≠ [] → ∀ v min_score, ∃ best bestScore,
      extractOne score v (dedupKeepFirst right_col) = some (best, bestScore) ∧
      best ∈ dedupKeepFirst right_col ∧ bestScore = score v best ∧
      (∀ c ∈ dedupKeepFirst right_col, score v c ≤ bestScore) ∧
      string_fuzzy_match score v (dedupKeepFirst right_col) min_score
        = if min_score ≤ bestScore then some best else none) := by
  refine ⟨?_, ?_, ?_⟩
  · intro h1
    subst h1
    unfold create_string_merge_cols
    rw [if_neg (lt_irrefl 1)]
  · intro hlt
    unfold create_string_merge_cols
    rw [if_pos hlt]
    refine List.map_congr_left ?_
    intro key hkey
    have hmem : key ∈ dedupKeepFirst left_col := (mem_dedupKeepFirst _ _).mpr hkey
    rw [find_map_pair (dedupKeepFirst left_col)
      (fun k => string_fuzzy_match score k (dedupKeepFirst right_col)
        (accuracy * 100)) key hmem]
    rfl
  · intro hne v min_score
    have hdne : dedupKeepFirst right_col ≠ [] := by
      intro hbad
      cases right_col with
      | nil => exact hne rfl
      | cons a rest =>
          have : a ∈ dedupKeepFirst (a :: rest) :=
            (mem_dedupKeepFirst _ _).mpr (List.mem_cons_self a rest)
          rw [hbad] at this
          cases this
    obtain ⟨best, bestScore, heq, hmem, hscore, hmax⟩ :=
      extractOne_spec score v (dedupKeepFirst right_col) hdne
    refine ⟨best, bestScore, heq, hmem, hscore, hmax, ?_⟩
    unfold string_fuzzy_match
    rw [heq]

/-- Witness for create_string_merge_cols_spec: applied at accuracy 1/2 with
a one-element left column and a constant scorer. -/
theorem create_string_merge_cols_spec_witness :
    ((1 : ℚ)/2 < 1) ∧
      create_string_merge_cols (fun _ _ => 50) ["x"] ["y"] (1/2)
        = ["x"].map (fun v =>
            string_fuzzy_match (fun _ _ => 50) v (dedupKeepFirst ["y"])
              ((1/2) * 100)) :=
  ⟨by norm_num,
    (create_string_merge_cols_spec (fun _ _ => 50) ["x"] ["y"] (1/2)).2.1
      (by norm_num)⟩

lemma mem_npUnique (l : List ℤ) (x : ℤ) : x ∈ npUnique l ↔ x ∈ l := by
  unfold npUnique
  rw [Finset.mem_sort, List.mem_toFinset]

lemma int_min?_iff {l : List ℤ} {m : ℤ} :
    l.min? = some m ↔ m ∈ l ∧ ∀ b ∈ l, m ≤ b :=
  List.min?_eq_some_iff (fun a => le_refl a) (fun a b => min_choice a b)
    (fun _ _ _ => le_min_iff)

lemma int_max?_iff {l : List ℤ} {m : ℤ} :
    l.max? = some m ↔ m ∈ l ∧ ∀ b ∈ l, b ≤ m :=
  List.max?_eq_some_iff (fun a => le_refl a) (fun a b => max_choice a b)
    (fun _ _ _ => max_le_iff)

lemma min?_npUnique (l : List ℤ) (m : ℤ) :
    (npUnique l).min? = some m ↔ l.min? = some m := by
  rw [int_min?_iff, int_min?_iff]
  constructor
  · rintro ⟨hm, hall⟩
    exact ⟨(mem_npUnique l m).mp hm,
      fun b hb => hall b ((mem_npUnique l b).mpr hb)⟩
  · rintro ⟨hm, hall⟩
    exact ⟨(mem_npUnique l m).mpr hm,
      fun b hb => hall b ((mem_npUnique l b).mp hb)⟩

lemma max?_npUnique (l : List ℤ) (m : ℤ) :
    (npUnique l).max? = some m ↔ l.max? = some m := by
  rw [int_max?_iff, int_max?_iff]
  constructor
  · rintro ⟨hm, hall⟩
    exact ⟨(mem_npUnique l m).mp hm,
      fun b hb => hall b ((mem_npUnique l b).mpr hb)⟩
  · rintro ⟨hm, hall⟩
    exact ⟨(mem_npUnique l m).mpr hm,
      fun b hb => hall b ((mem_npUnique l b).mp hb)⟩

lemma min?_isSome_of_ne_nil (l : List ℤ) (h : l ≠ []) : ∃ m, l.min? = some m := by
  cases l with
  | nil => exact absurd rfl h
  | cons a as => exact ⟨as.foldl min a, rfl⟩

lemma max?_isSome_of_ne_nil (l : List ℤ) (h : l ≠ []) : ∃ m, l.max? = some m := by
  cases l with
  | nil => exact absurd rfl h
  | cons a as => exact ⟨as.foldl max a, rfl⟩

lemma dtmGood_step (v : ℤ) (tolerance : ℚ) (seen : List ℤ)
    (acc : Option (ℤ × ℤ)) (h : dtmGood v tolerance seen acc) (date : ℤ) :
    dtmGood v tolerance (seen ++ [date]) (dtmStep v tolerance acc date) := by
  cases acc with
  | none =>
      simp only [dtmGood, dtmStep] at h ⊢
      by_cases hd : ((|v - date| : ℤ) : ℚ) ≤ tolerance
      · simp only [if_pos hd]
        refine ⟨by simp, by trivial, hd, ?_⟩
        intro c hc _
        rcases List.mem_append.mp hc with hc | hc
        · exact absurd ‹((|v - c| : ℤ) : ℚ) ≤ tolerance› (h c hc)
        · simp only [List.mem_singleton] at hc
          subst hc; exact le_refl _
      · simp only [if_neg hd]
        intro c hc
        rcases List.mem_append.mp hc with hc | hc
        · exact h c hc
        · simp only [List.mem_singleton] at hc
          subst hc; exact hd
  | some p =>
      obtain ⟨min_date, min_distance⟩ := p
      simp only [dtmGood, dtmStep] at h ⊢
      obtain ⟨hmem, hdist, htol, hmin⟩ := h
      by_cases hd : ((|v - date| : ℤ) : ℚ) ≤ tolerance ∧ |v - date| < min_distance
      · simp only [if_pos hd]
        refine ⟨by simp, by trivial, hd.1, ?_⟩
        intro c hc hct
        rcases List.mem_append.mp hc with hc | hc
        · exact le_trans (le_of_lt hd.2) (hmin c hc hct)
        · simp only [List.mem_singleton] at hc
          subst hc; exact le_refl _
      · simp only [if_neg hd]
        refine ⟨List.mem_append.mpr (Or.inl hmem), hdist, htol, ?_⟩
        intro c hc hct
        rcases List.mem_append.mp hc with hc | hc
        · exact hmin c hc hct
        · simp only [List.mem_singleton] at hc
          subst hc
          rcases not_and_or.mp hd with hbad | hbad
          · exact absurd hct hbad
          · exact le_of_not_lt hbad

lemma dtmGood_foldl (v : ℤ) (tolerance : ℚ) (choices : List ℤ) :
    ∀ (seen : List ℤ) (acc : Option (ℤ × ℤ)), dtmGood v tolerance seen acc →
      dtmGood v tolerance (seen ++ choices)
        (choices.foldl (dtmStep v tolerance) acc) := by
  induction choices with
  | nil => intro seen acc h; simpa using h
  | cons date rest ih =>
      intro seen acc h
      simp only [List.foldl_cons]
      have h2 := ih (seen ++ [date]) (dtmStep v tolerance acc date)
        (dtmGood_step v tolerance seen acc h date)
      simpa using h2

lemma datetime_match_none_iff (v : ℤ) (choices : List ℤ) (tolerance : ℚ) :
    datetime_fuzzy_match v choices tolerance = none ↔
      ∀ c ∈ choices, ¬ (((|v - c| : ℤ) : ℚ) ≤ tolerance) := by
  have hspec := dtmGood_foldl v tolerance choices [] none (by simp [dtmGood])
  simp only [List.nil_append] at hspec
  unfold datetime_fuzzy_match
  cases hfold : choices.foldl (dtmStep v tolerance) none with
  | none =>
      rw [hfold] at hspec
      simp only [dtmGood] at hspec
      simpa using hspec
  | some p =>
      obtain ⟨min_date, min_distance⟩ := p
      rw [hfold] at hspec
      obtain ⟨hmem, hd, htol, _⟩ := hspec
      subst hd
      simp only [Option.map_some', Option.some_ne_none, false_iff]
      intro hall
      exact hall min_date hmem htol

lemma datetime_match_some_spec (v : ℤ) (choices : List ℤ) (tolerance : ℚ)
    (c : ℤ) (h : datetime_fuzzy_match v choices tolerance = some c) :
    c ∈ choices ∧ ((|v - c| : ℤ) : ℚ) ≤ tolerance ∧
      ∀ x ∈ choices, ((|v - x| : ℤ) : ℚ) ≤ tolerance → |v - c| ≤ |v - x| := by
  have hspec := dtmGood_foldl v tolerance choices [] none (by simp [dtmGood])
  simp only [List.nil_append] at hspec
  unfold datetime_fuzzy_match at h
  cases hfold : choices.foldl (dtmStep v tolerance) none with
  | none => rw [hfold] at h; exact absurd h (by simp)
  | some p =>
      obtain ⟨min_date, min_distance⟩ := p
      rw [hfold] at h hspec
      simp only [Option.map_some', Option.some.injEq] at h
      subst h
      obtain ⟨hmem, hd, htol, hmin⟩ := hspec
      subst hd
      exact ⟨hmem, htol, hmin⟩

/-- C4: for a datetime column pair with nonempty sides, the tolerance is
(1 - accuracy) * min(leftSpan, rightSpan), each span being the maximum
minus the minimum parsed timestamp of that side, and each left timestamp is
matched against the deduplicated right timestamp set to a candidate
minimizing the absolute time difference subject to difference <= tolerance
(no match when no candidate is within tolerance). -/
theorem create_datetime_merge_cols_spec (L R : List ℤ) (accuracy : ℚ)
    (hL : L ≠ []) (hR : R ≠ []) :
    ∃ lmin lmax rmin rmax : ℤ,
      L.min? = some lmin ∧ L.max? = some lmax ∧
      R.min? = some rmin ∧ R.max? = some rmax ∧
      create_datetime_merge_cols L R accuracy = Except.ok
        (L.map (fun v => datetime_fuzzy_match v (npUnique R)
          ((1 - accuracy) * ((min (lmax - lmin) (rmax - rmin) : ℤ) : ℚ))), R) ∧
      (∀ x : ℤ, x ∈ npUnique R ↔ x ∈ R) ∧
      ∀ (v : ℤ) (tol : ℚ),
        (datetime_fuzzy_match v (npUnique R) tol = none ↔
          ∀ c ∈ npUnique R, ¬ (((|v - c| : ℤ) : ℚ) ≤ tol)) ∧
        ∀ c, datetime_fuzzy_match v (npUnique R) tol = some c →
          c ∈ npUnique R ∧ ((|v - c| : ℤ) : ℚ) ≤ tol ∧
            ∀ x ∈ npUnique R, ((|v - x| : ℤ) : ℚ) ≤ tol → |v - c| ≤ |v - x| := by
  obtain ⟨lmin, hlmin⟩ := min?_isSome_of_ne_nil L hL
  obtain ⟨lmax, hlmax⟩ := max?_isSome_of_ne_nil L hL
  obtain ⟨rmin, hrmin⟩ := min?_isSome_of_ne_nil R hR
  obtain ⟨rmax, hrmax⟩ := max?_isSome_of_ne_nil R hR
  refine ⟨lmin, lmax, rmin, rmax, hlmin, hlmax, hrmin, hrmax, ?_, ?_, ?_⟩
  · have hcp : compute_time_range L (npUnique R)
        = some (min (lmax - lmin) (rmax - rmin)) := by
      unfold compute_time_range
      rw [hlmin, hlmax, (min?_npUnique R rmin).mpr hrmin,
        (max?_npUnique R rmax).mpr hrmax]
    unfold create_datetime_merge_cols
    simp only [hcp]
  · exact fun x => mem_npUnique R x
  · intro v tol
    exact ⟨datetime_match_none_iff v (npUnique R) tol,
      fun c h => datetime_match_some_spec v (npUnique R) tol c h⟩

/-- Witness for create_datetime_merge_cols_spec at L = [0, 10],
R = [0, 4, 10], accuracy = 1/2. -/
theorem create_datetime_merge_cols_spec_witness :
    ([(0 : ℤ), 10] ≠ []) ∧ ([(0 : ℤ), 4, 10] ≠ []) ∧
      ∃ lmin lmax rmin rmax : ℤ,
        [(0 : ℤ), 10].min? = some lmin ∧ [(0 : ℤ), 10].max? = some lmax ∧
        [(0 : ℤ), 4, 10].min? = some rmin ∧ [(0 : ℤ), 4, 10].max? = some rmax ∧
        create_datetime_merge_cols [0, 10] [0, 4, 10] (1/2) = Except.ok
          (([(0 : ℤ), 10]).map (fun v =>
            datetime_fuzzy_match v (npUnique [0, 4, 10])
              ((1 - 1/2) * ((min (lmax - lmin) (rmax - rmin) : ℤ) : ℚ))),
            [0, 4, 10]) ∧
        (∀ x : ℤ, x ∈ npUnique [0, 4, 10] ↔ x ∈ [(0 : ℤ), 4, 10]) ∧
        ∀ (v : ℤ) (tol : ℚ),
          (datetime_fuzzy_match v (npUnique [0, 4, 10]) tol = none ↔
            ∀ c ∈ npUnique [0, 4, 10], ¬ (((|v - c| : ℤ) : ℚ) ≤ tol)) ∧
          ∀ c, datetime_fuzzy_match v (npUnique [0, 4, 10]) tol = some c →
            c ∈ npUnique [0, 4, 10] ∧ ((|v - c| : ℤ) : ℚ) ≤ tol ∧
              ∀ x ∈ npUnique [0, 4, 10], ((|v - x| : ℤ) : ℚ) ≤ tol →
                |v - c| ≤ |v - x| :=
  ⟨by simp, by simp,
    create_datetime_merge_cols_spec [0, 10] [0, 4, 10] (1/2)
      (by simp) (by simp)⟩

/-- C5: the geo-vector merging path is dead code: its branch is guarded by
the same float-vector membership test as the plain vector branch checked
first, so no resolved join type ever dispatches to it, and the float-vector
type itself dispatches to the plain vector branch. -/
theorem geo_vector_branch_unreachable :
    (∀ jt : Option String, dispatch jt ≠ Branch.geoVectorBranch) ∧
      dispatch (some "https://metadata.datadrivendiscovery.org/types/FloatVector")
        = Branch.vectorBranch := by
  constructor
  · intro jt
    unfold dispatch
    by_cases h1 : optMem jt STRING_JOIN_TYPES = true
    · simp [h1]
    · by_cases h2 : optMem jt NUMERIC_JOIN_TYPES = true
      · simp [h1, h2]
      · by_cases h3 : optMem jt VECTOR_JOIN_TYPES = true
        · simp [h1, h2, h3]
        · by_cases h4 : optMem jt DATETIME_JOIN_TYPES = true
          · simp [h1, h2, h3, h4]
          · simp [h1, h2, h3, h4]
  · rfl

lemma process_pairs_from_append (jt : Option String)
    (rest : List (Option String)) (hjt : dispatch jt = Branch.unsupportedBranch) :
    ∀ (pre : List (Option String)) (i : Nat) (ran : List Nat),
      (∀ t ∈ pre, dispatch t ≠ Branch.unsupportedBranch) →
      process_pairs_from i ran (pre ++ jt :: rest)
        = (ran ++ List.range' i pre.length,
           some ("join not surpported on type " ++ showJoinType jt)) := by
  intro pre
  induction pre with
  | nil =>
      intro i ran _
      simp [process_pairs_from, if_pos hjt]
  | cons t pre' ih =>
      intro i ran hpre
      have ht : dispatch t ≠ Branch.unsupportedBranch :=
        hpre t (List.mem_cons_self t pre')
      simp only [List.cons_append, process_pairs_from, if_neg ht, List.append_eq]
      rw [ih (i + 1) (ran ++ [i])
        (fun x hx => hpre x (List.mem_cons_of_mem t hx))]
      rw [List.length_cons, List.range'_succ, List.append_assoc]
      rfl

/-- C8 (amended): when a configured pair resolves to an unsupported join
type, produce raises InvalidArgumentValueError upon reaching that pair in
the processing loop; the matchers of every pair configured before it have
already run by then, and the error message names the resolved join type
(str of it, e.g. None), not the offending column pair. -/
theorem unsupported_join_type_error (pre : List (Option String))
    (jt : Option String) (rest : List (Option String))
    (hpre : ∀ t ∈ pre, dispatch t ≠ Branch.unsupportedBranch)
    (hjt : dispatch jt = Branch.unsupportedBranch) :
    process_pairs (pre ++ jt :: rest)
      = (List.range pre.length,
         some ("join not surpported on type " ++ showJoinType jt)) := by
  unfold process_pairs
  rw [process_pairs_from_append jt rest hjt pre 0 [] hpre]
  rw [List.range_eq_range']
  rfl

/-- Witness for unsupported_join_type_error: one supported text pair
configured before an unresolved pair. -/
theorem unsupported_join_type_error_witness :
    process_pairs ([some "http://schema.org/Text"] ++ none :: [])
      = (List.range 1, some ("join not surpported on type " ++ showJoinType none)) :=
  unsupported_join_type_error [some "http://schema.org/Text"] none []
    (by
      intro t ht
      simp only [List.mem_singleton] at ht
      subst ht
      decide)
    (by decide)

/-- C8 counterexample: with a supported text pair configured before an
unsupported pair, the matcher of pair 0 has already run when the error is
raised (the list of executed pair indices is [0], not []), and the error
message names only the resolved type None, containing no column names. -/
theorem unsupported_join_type_fail_fast_counterexample :
    process_pairs [some "http://schema.org/Text", none]
      = ([0], some "join not surpported on type None") ∧
      ([0] : List Nat) ≠ [] := by
  constructor
  · decide
  · simp

/-- C10: a configured column name absent from the table metadata makes
_get_column_semantic_type return the empty type set; with an empty type set
on either side _get_join_semantic_type resolves to None, and produce then
fails through the same unsupported-join-type branch with the error naming
the type None -- not through a distinct missing-column error. -/
theorem missing_column_unsupported_join (columns : List (String × List String))
    (col_name : String) (left_types right_types : List String)
    (h : ∀ c ∈ columns, c.1 ≠ col_name) :
    get_column_semantic_type columns col_name = [] ∧
    get_join_semantic_type [] right_types = none ∧
    get_join_semantic_type left_types [] = none ∧
    dispatch none = Branch.unsupportedBranch ∧
    process_pairs [none] = ([], some "join not surpported on type None") := by
  refine ⟨?_, ?_, ?_, rfl, by decide⟩
  · unfold get_column_semantic_type
    rw [List.find?_eq_none.mpr]
    intro c hc
    simp only [beq_iff_eq]
    exact h c hc
  · rfl
  · unfold get_join_semantic_type
    have hempty : (left_types.filter (fun t => SUPPORTED_TYPES.contains t)).filter
        (fun t => (List.filter (fun t => SUPPORTED_TYPES.contains t) []).contains t)
        = [] := by
      simp
    simp only [hempty, List.filter_nil, List.isEmpty_nil, Bool.and_false,
      Bool.false_eq_true, if_false, if_true, List.head?_nil]
    simp

/-- Witness for missing_column_unsupported_join: a single-column table
whose only column is named a, looked up under the absent name b. -/
theorem missing_column_unsupported_join_witness :
    get_column_semantic_type [("a", ["http://schema.org/Text"])] "b" = [] ∧
    get_join_semantic_type [] ["http://schema.org/Text"] = none ∧
    get_join_semantic_type ["http://schema.org/Text"] [] = none ∧
    dispatch none = Branch.unsupportedBranch ∧
    process_pairs [none] = ([], some "join not surpported on type None") :=
  missing_column_unsupported_join [("a", ["http://schema.org/Text"])] "b"
    ["http://schema.org/Text"] ["http://schema.org/Text"]
    (by
      intro c hc
      simp only [List.mem_singleton] at hc
      subst hc
      decide)

/-- C6 (amended): produce mutates the caller input tables in place: the
synthetic lefty_string column is appended to the left table, and on the
right table the join column is renamed to righty_string and d3mIndex is
dropped, so neither input table keeps its original column set. -/
theorem produce_mutates_inputs (left_cols right_cols : List String)
    (right_col : String) (index : Nat)
    (h1 : ("lefty_string" ++ toString index) ∉ left_cols)
    (h2 : right_col ∈ right_cols)
    (h3 : right_col ≠ "righty_string" ++ toString index)
    (h4 : "righty_string" ++ toString index ≠ "d3mIndex") :
    (produce_string_pair_mutation left_cols right_cols right_col index).1
        = left_cols ++ ["lefty_string" ++ toString index] ∧
    (produce_string_pair_mutation left_cols right_cols right_col index).1
        ≠ left_cols ∧
    ("righty_string" ++ toString index)
        ∈ (produce_string_pair_mutation left_cols right_cols right_col index).2 ∧
    right_col ∉ (produce_string_pair_mutation left_cols right_cols right_col index).2 := by
  have hfst : (produce_string_pair_mutation left_cols right_cols right_col index).1
      = left_cols ++ ["lefty_string" ++ toString index] := by
    unfold produce_string_pair_mutation pandasAssign
    simp only [if_neg h1]
  refine ⟨hfst, ?_, ?_, ?_⟩
  · rw [hfst]
    intro heq
    have hlen := congrArg List.length heq
    simp at hlen
  · unfold produce_string_pair_mutation pandasDrop pandasRename
    simp only
    rw [List.mem_filter]
    constructor
    · rw [List.mem_map]
      exact ⟨right_col, h2, by rw [if_pos rfl]⟩
    · simp only [List.contains_cons, List.contains_nil, Bool.or_false]
      simp [h4]
  · unfold produce_string_pair_mutation pandasDrop pandasRename
    simp only
    intro hbad
    rw [List.mem_filter] at hbad
    obtain ⟨hmem, _⟩ := hbad
    rw [List.mem_map] at hmem
    obtain ⟨c, _, hc⟩ := hmem
    by_cases hcr : c = right_col
    · rw [if_pos hcr] at hc
      exact h3 hc.symm
    · rw [if_neg hcr] at hc
      exact hcr hc

/-- Witness for produce_mutates_inputs on two concrete two-column tables
joined on the column named value. -/
theorem produce_mutates_inputs_witness :
    (produce_string_pair_mutation ["d3mIndex", "value"] ["d3mIndex", "value"]
        "value" 0).1
        = ["d3mIndex", "value"] ++ ["lefty_string" ++ toString 0] ∧
    (produce_string_pair_mutation ["d3mIndex", "value"] ["d3mIndex", "value"]
        "value" 0).1
        ≠ ["d3mIndex", "value"] ∧
    ("righty_string" ++ toString 0)
        ∈ (produce_string_pair_mutation ["d3mIndex", "value"]
            ["d3mIndex", "value"] "value" 0).2 ∧
    "value" ∉ (produce_string_pair_mutation ["d3mIndex", "value"]
        ["d3mIndex", "value"] "value" 0).2 :=
  produce_mutates_inputs ["d3mIndex", "value"] ["d3mIndex", "value"] "value" 0
    (by decide) (by decide) (by decide) (by decide)

/-- C6 counterexample: for concrete inputs whose tables both have columns
d3mIndex and value, joined as a string pair on value, produce leaves the
left table with an extra synthetic column and the right table renamed and
stripped, so both caller tables differ from their original column sets. -/
theorem produce_mutates_inputs_counterexample :
    (produce_string_pair_mutation ["d3mIndex", "value"] ["d3mIndex", "value"]
        "value" 0).1 ≠ ["d3mIndex", "value"] ∧
    (produce_string_pair_mutation ["d3mIndex", "value"] ["d3mIndex", "value"]
        "value" 0).2 ≠ ["d3mIndex", "value"] := by
  decide

lemma pd_to_numeric_error (left_col : List Cell)
    (h : Cell.unparsable ∈ left_col) :
    pd_to_numeric left_col = Except.error "Unable to parse string" := by
  induction left_col with
  | nil => cases h
  | cons c rest ih =>
      cases c with
      | numeric q =>
          have hr : Cell.unparsable ∈ rest := by
            rcases List.mem_cons.mp h with hbad | hr
            · cases hbad
            · exact hr
          simp only [pd_to_numeric, ih hr, Except.map]
      | unparsable => rfl

/-- C7 (amended): a left value that cannot be coerced to the numeric
representation makes pd.to_numeric raise inside
_create_numeric_merge_cols; the exception is not caught anywhere in
produce, so the whole join aborts instead of treating the value as a
per-row no-match. -/
theorem coercion_failure_propagates (left_col : List Cell)
    (right_col : List ℚ) (accuracy : ℚ) (is_absolute : Bool)
    (h : Cell.unparsable ∈ left_col) :
    create_numeric_merge_cols left_col right_col accuracy is_absolute
      = Except.error "Unable to parse string" := by
  unfold create_numeric_merge_cols
  rw [pd_to_numeric_error left_col h]
  rfl

/-- Witness for coercion_failure_propagates on a two-row left column whose
second value is non-coercible. -/
theorem coercion_failure_propagates_witness :
    Cell.unparsable ∈ [Cell.numeric 1, Cell.unparsable] ∧
      create_numeric_merge_cols [Cell.numeric 1, Cell.unparsable] [1] (1/2) true
        = Except.error "Unable to parse string" :=
  ⟨by simp, coercion_failure_propagates [Cell.numeric 1, Cell.unparsable] [1]
    (1/2) true (by simp)⟩

/-- C7 counterexample: a single non-coercible value in a numeric left
column makes _create_numeric_merge_cols raise (pd.to_numeric with default
errors="raise"), contradicting the claim that the failure is caught and
folded into a per-value no-match. -/
theorem coercion_failure_caught_counterexample :
    create_numeric_merge_cols [Cell.numeric 1, Cell.unparsable] [1] (1/2) true
      = Except.error "Unable to parse string" := by
  rfl

end FuzzyJoin

